import Mathlib

/-!
Verification of the grounded-text segmentation and citation-attribution engine
of the llm-news-curator repository.

Python strings are modelled as `List Char` (Python `str` is a sequence of code
points).  Machine integers are modelled as `Int`/`Nat`.  Fallible code returns
`Except`.  Each definition below is a shallow embedding of the corresponding
function in `src/news_curator.py`, `src/slack_poster.py` or `src/main.py`;
doc comments name the embedded source function.
-/

namespace NewsCuratorModel

/-! ## Python string primitives -/

/-- Whitespace recognised by Python `str.strip()` (restricted to the ASCII
whitespace characters, which are the only ones relevant here). -/
def pyIsSpace (c : Char) : Bool :=
  c == ' ' || c == '\t' || c == '\n' || c == '\r' || c == '\x0b' || c == '\x0c'

/-- Python `str.strip()`: drop leading and trailing whitespace. -/
def pyStrip (s : List Char) : List Char :=
  (((s.dropWhile pyIsSpace).reverse).dropWhile pyIsSpace).reverse

/-- Python `str.split(sep)` for a non-empty separator `sep`: split at each
leftmost non-overlapping occurrence of `sep`. -/
def splitSep (sep : List Char) : List Char → List (List Char)
  | [] => [[]]
  | c :: rest =>
    if h : sep ≠ [] ∧ sep.isPrefixOf (c :: rest) then
      [] :: splitSep sep (List.drop sep.length (c :: rest))
    else
      match splitSep sep rest with
      | [] => [[c]]
      | p :: ps => (c :: p) :: ps
termination_by l => l.length
decreasing_by
  · have hpos : 0 < sep.length := List.length_pos.mpr h.1
    simp only [List.length_drop, List.length_cons]
    omega
  · simp only [List.length_cons]
    omega

/-- Python `sep.join(parts)`. -/
def joinSep (sep : List Char) : List (List Char) → List Char
  | [] => []
  | [p] => p
  | p :: q :: ps => p ++ sep ++ joinSep sep (q :: ps)

/-- Python `s.count(sep)` for a non-empty `sep`: the number of leftmost
non-overlapping occurrences of `sep` in `s`. -/
def countSep (sep : List Char) : List Char → Nat
  | [] => 0
  | c :: rest =>
    if h : sep ≠ [] ∧ sep.isPrefixOf (c :: rest) then
      countSep sep (List.drop sep.length (c :: rest)) + 1
    else
      countSep sep rest
termination_by l => l.length
decreasing_by
  · have hpos : 0 < sep.length := List.length_pos.mpr h.1
    simp only [List.length_drop, List.length_cons]
    omega
  · simp only [List.length_cons]
    omega

/-- Python substring containment `needle in hay` (for the non-empty needles
the curator tests): `needle` occurs contiguously in `hay`. -/
def isSubstring (needle : List Char) : List Char → Bool
  | [] => needle.isEmpty
  | c :: rest => needle.isPrefixOf (c :: rest) || isSubstring needle rest

/-- Python list indexing `l[i]` for a possibly negative `i : Int`: a negative
index counts from the end; an index out of the range `[-len l, len l)` is an
`IndexError`, modelled as `none`. -/
def pyGet (l : List α) (i : Int) : Option α :=
  let j : Int := if i < 0 then i + l.length else i
  if j < 0 then none else l[j.toNat]?

/-! ## Data model (`src/news_curator.py`) -/

/-- A citation chunk dictionary `{title, uri}` as built by
`_extract_grounding_metadata`. -/
structure Chunk where
  title : List Char
  uri : List Char
deriving DecidableEq, Repr

/-- A support's segment dictionary `{start_index, end_index, text}`. -/
structure Segment where
  start_index : Int
  end_index : Int
  text : List Char
deriving DecidableEq, Repr

/-- A citation support dictionary as built by `_extract_grounding_metadata`.
The confidence scores are floats in the source but are never read by any of
the code under verification, so their element type is irrelevant. -/
structure Support where
  chunk_indices : List Int
  confidence_scores : List Int
  segment : Option Segment
deriving DecidableEq, Repr

/-- The `NewsItem` record.  Its constructor strips the text
(`self.text = text.strip()`). -/
structure NewsItem where
  text : List Char
  sources : List Chunk
  is_impression : Bool
deriving DecidableEq, Repr

/-- The `NewsItem` constructor: strips the given text. -/
def mkNewsItem (text : List Char) (sources : List Chunk) (imp : Bool) : NewsItem :=
  ⟨pyStrip text, sources, imp⟩

/-- Python exceptions that the modelled code can raise. -/
inductive PyErr
  | indexError
deriving DecidableEq, Repr

deriving instance DecidableEq for Except

/-! ## Attribution (`NewsCurator`) -/

/-- `NewsCurator.SEPARATOR`. -/
def SEPARATOR : List Char := "---".data

/-- `NewsCurator.MIN_SEGMENT_TEXT_LENGTH`. -/
def MIN_SEGMENT_TEXT_LENGTH : Nat := 10

/-- `support.get("segment", {}).get("text", "")`: the segment text of a
support, empty when the support has no segment. -/
def segTextOf (s : Support) : List Char :=
  match s.segment with
  | some seg => seg.text
  | none => []

/-- The matching test of `_find_sources_for_part`:
`seg_text and len(seg_text) > MIN_SEGMENT_TEXT_LENGTH and seg_text in part_text`. -/
def supportMatches (partText : List Char) (s : Support) : Bool :=
  !(segTextOf s).isEmpty
    && decide (MIN_SEGMENT_TEXT_LENGTH < (segTextOf s).length)
    && isSubstring (segTextOf s) partText

/-- The index-collection loop of `_find_sources_for_part`: for every matching
support, add each of its chunk indices that passes the `idx < len(chunks)`
guard.  (The Python code accumulates into a `set`; the set is modelled by the
`dedup`/sort normalisation applied afterwards.) -/
def collectIndices (partText : List Char) (chunks : List Chunk)
    (supports : List Support) : List Int :=
  supports.foldl
    (fun acc s =>
      if supportMatches partText s then
        acc ++ s.chunk_indices.filter (fun idx => decide (idx < (chunks.length : Int)))
      else acc)
    []

/-- The resolution loop of `_find_sources_for_part`: walk the sorted index
set, look up `chunks[idx]` (an out-of-range index raises `IndexError`), drop
chunks with empty or already-seen URIs. -/
def resolveIndices (chunks : List Chunk) : List Int → List (List Char) → Except PyErr (List Chunk)
  | [], _ => .ok []
  | idx :: rest, seen =>
    match pyGet chunks idx with
    | none => .error .indexError
    | some c =>
      if c.uri = [] ∨ c.uri ∈ seen then
        resolveIndices chunks rest seen
      else
        match resolveIndices chunks rest (c.uri :: seen) with
        | .error e => .error e
        | .ok tail => .ok (c :: tail)

/-- `NewsCurator._find_sources_for_part`.  `sorted(source_indices)` over the
Python set is modelled as insertion sort of the deduplicated collected list,
which is the same ascending enumeration of the distinct collected indices. -/
def findSourcesForPart (partText : List Char) (chunks : List Chunk)
    (supports : List Support) : Except PyErr (List Chunk) :=
  resolveIndices chunks
    (List.insertionSort (fun a b => a ≤ b) (collectIndices partText chunks supports).dedup)
    []

/-- The loop body of `NewsCurator._dedupe_sources`, generalised over the
`seen_uris` set (modelled as the list of URIs seen so far). -/
def dedupeLoop : List Chunk → List (List Char) → List Chunk
  | [], _ => []
  | c :: rest, seen =>
    if c.uri = [] ∨ c.uri ∈ seen then dedupeLoop rest seen
    else c :: dedupeLoop rest (c.uri :: seen)

/-- `NewsCurator._dedupe_sources`. -/
def dedupeSources (chunks : List Chunk) : List Chunk :=
  dedupeLoop chunks []

/-- Deduplication by URI written directly from the spec's words: drop any
chunk with an empty URI and deduplicate by URI keeping first-seen order. -/
def dedupeByUriSpec : List Chunk → List Chunk
  | [] => []
  | c :: rest =>
    if c.uri = [] then dedupeByUriSpec rest
    else c :: dedupeByUriSpec (rest.filter (fun d => d.uri != c.uri))
termination_by l => l.length
decreasing_by
  · simp only [List.length_cons]
    omega
  · have := List.length_filter_le (fun d => d.uri != c.uri) rest
    simp only [List.length_cons]
    omega

/-- The item-assembly loop of `_parse_news_items` over the split parts, with
`i` the index of the first remaining part and `n = len(parts)`.  The last part
is flagged as the impression item and its sources are forced empty (but note
the source lookup still runs first, as in the source). -/
def assembleLoop (chunks : List Chunk) (supports : List Support) (n : Nat) :
    Nat → List (List Char) → Except PyErr (List NewsItem)
  | _, [] => .ok []
  | i, p :: rest =>
    let pt := pyStrip p
    if pt = [] then assembleLoop chunks supports n (i + 1) rest
    else
      match findSourcesForPart pt chunks supports with
      | .error e => .error e
      | .ok srcs =>
        match assembleLoop chunks supports n (i + 1) rest with
        | .error e => .error e
        | .ok tail =>
          .ok (mkNewsItem pt (if i = n - 1 then [] else srcs) (decide (i = n - 1)) :: tail)

/-- `NewsCurator._parse_news_items`. -/
def parseNewsItems (text : List Char) (chunks : List Chunk)
    (supports : List Support) : Except PyErr (List NewsItem) :=
  let parts := splitSep SEPARATOR text
  if parts.length ≤ 1 then
    .ok [mkNewsItem text (dedupeSources chunks) false]
  else
    assembleLoop chunks supports parts.length 0 parts

/-! ## Renderer (`src/slack_poster.py`, `_build_blocks`) -/

/-- `MAX_BLOCK_TEXT_LENGTH`. -/
def MAX_BLOCK_TEXT_LENGTH : Nat := 3000

/-- `MAX_HEADER_LENGTH`. -/
def MAX_HEADER_LENGTH : Nat := 150

/-- A Slack Block Kit block as built by `_build_blocks` (the payload of a
context block is the text of its single mrkdwn element). -/
inductive SlackBlock
  | headerBlock (text : List Char)
  | contextBlock (text : List Char)
  | dividerBlock
  | sectionBlock (text : List Char)
deriving DecidableEq, Repr

/-- Whether a block is a context block (the shape used for source links). -/
def SlackBlock.isContext : SlackBlock → Bool
  | .contextBlock _ => true
  | _ => false

/-- `SlackPoster._format_source_links`: `<uri|title>` for every source with a
non-empty URI, joined with `" · "`. -/
def formatSourceLinks (sources : List Chunk) : List Char :=
  joinSep " · ".data
    (sources.filterMap fun s =>
      if s.uri = [] then none
      else some ('<' :: (s.uri ++ '|' :: (s.title ++ ['>']))))

/-- Truncation applied by `_build_blocks`: texts longer than `maxLen` are cut
to `maxLen - 3` characters plus `"..."`. -/
def truncateTo (maxLen : Nat) (text : List Char) : List Char :=
  if maxLen < text.length then text.take (maxLen - 3) ++ "...".data else text

/-- The blocks `_build_blocks` appends for one news item: a divider, the
(possibly truncated) section text, and — only for a non-impression item with
sources that format to a non-empty link string — one source-link context
block. -/
def itemBlocks (item : NewsItem) : List SlackBlock :=
  [SlackBlock.dividerBlock,
   SlackBlock.sectionBlock (truncateTo MAX_BLOCK_TEXT_LENGTH item.text)] ++
    (if item.is_impression = false ∧ item.sources ≠ [] then
      (if formatSourceLinks item.sources ≠ [] then
        [SlackBlock.contextBlock ("🔗 ".data ++ formatSourceLinks item.sources)]
      else [])
    else [])

/-- `SlackPoster._build_blocks`: header, date context, the per-item blocks,
and the footer (the date/time/model strings are runtime inputs). -/
def buildBlocks (header date time model : List Char) (items : List NewsItem) :
    List SlackBlock :=
  [SlackBlock.headerBlock (truncateTo MAX_HEADER_LENGTH header),
   SlackBlock.contextBlock ("📅 ".data ++ date)]
    ++ items.flatMap itemBlocks
    ++ [SlackBlock.dividerBlock,
        SlackBlock.contextBlock ("⚡ ".data ++ model ++ " · ".data ++ time)]

/-! ## Grounding metadata extraction (`_extract_grounding_metadata`)

The response is a loosely-typed object tree.  An attribute holding a sequence
is modelled by `PyIter`: `missing` covers both an absent attribute and a falsy
value (both are skipped by the `hasattr(...) and ...` guards), `bad` covers a
truthy non-iterable value (iterating it raises), and `items` an actual list.
-/

/-- A loosely-typed sequence-valued attribute. -/
inductive PyIter (α : Type)
  | missing
  | bad
  | items (l : List α)
deriving DecidableEq, Repr

/-- `chunk.web` payload (`title`/`uri` read with `getattr(…, "")`). -/
structure RawWeb where
  title : List Char
  uri : List Char
deriving DecidableEq, Repr

/-- A grounding chunk of the response (`web` may be absent or falsy). -/
structure RawChunk where
  web : Option RawWeb
deriving DecidableEq, Repr

/-- A support's segment in the response. -/
structure RawSegment where
  start_index : Int
  end_index : Int
  text : List Char
deriving DecidableEq, Repr

/-- A grounding support of the response. -/
structure RawSupport where
  grounding_chunk_indices : List Int
  confidence_scores : List Int
  segment : Option RawSegment
deriving DecidableEq, Repr

/-- `candidate.grounding_metadata` payload. -/
structure GroundingMetadata where
  grounding_chunks : PyIter RawChunk
  grounding_supports : PyIter RawSupport
deriving DecidableEq, Repr

/-- A response candidate (`grounding_metadata` may be absent or falsy). -/
structure Candidate where
  grounding_metadata : Option GroundingMetadata
deriving DecidableEq, Repr

/-- The model response as traversed by `_extract_grounding_metadata`
(`response.candidates` has no `hasattr` guard, so `missing` and `bad` both
raise at the `for` statement). -/
structure RawResponse where
  candidates : PyIter Candidate
deriving DecidableEq, Repr

/-- The chunk dictionaries appended while iterating `grounding_chunks`
(chunks whose `web` is absent or falsy are skipped). -/
def chunksOfIter : PyIter RawChunk → List Chunk
  | .items l => l.filterMap (fun rc => rc.web.map (fun w => Chunk.mk w.title w.uri))
  | _ => []

/-- The support dictionaries appended while iterating `grounding_supports`. -/
def supportsOfIter : PyIter RawSupport → List Support
  | .items l =>
    l.map (fun rs =>
      Support.mk rs.grounding_chunk_indices rs.confidence_scores
        (rs.segment.map (fun sg => Segment.mk sg.start_index sg.end_index sg.text)))
  | _ => []

/-- Processing of one candidate inside the `try` block.  Returns the updated
`(chunks, supports)` accumulators and whether an exception was raised.  A bad
`grounding_chunks` raises before anything from this candidate is appended; a
bad `grounding_supports` raises after the candidate's chunks were appended. -/
def candidateStep (acc : List Chunk × List Support) (c : Candidate) :
    (List Chunk × List Support) × Bool :=
  match c.grounding_metadata with
  | none => (acc, false)
  | some md =>
    match md.grounding_chunks with
    | .bad => (acc, true)
    | ci =>
      match md.grounding_supports with
      | .bad => ((acc.1 ++ chunksOfIter ci, acc.2), true)
      | si => ((acc.1 ++ chunksOfIter ci, acc.2 ++ supportsOfIter si), false)

/-- The candidate loop inside the `try` block: stops at the first raising
candidate, keeping what was accumulated so far. -/
def runCandidates : List Candidate → (List Chunk × List Support) → (List Chunk × List Support) × Bool
  | [], acc => (acc, false)
  | c :: rest, acc =>
    match candidateStep acc c with
    | (acc1, true) => (acc1, true)
    | (acc1, false) => runCandidates rest acc1

/-- `_extract_grounding_metadata`, including the raised-exception flag: the
accumulators are initialised before the `try`, so the `except` handler returns
whatever was accumulated when the exception was raised. -/
def extractResult (r : RawResponse) : (List Chunk × List Support) × Bool :=
  match r.candidates with
  | .items cands => runCandidates cands ([], [])
  | _ => (([], []), true)

/-- `NewsCurator._extract_grounding_metadata`: the pair actually returned. -/
def extractGroundingMetadata (r : RawResponse) : List Chunk × List Support :=
  (extractResult r).1

/-- Whether processing a candidate raises no exception. -/
def candOk (c : Candidate) : Bool :=
  match c.grounding_metadata with
  | none => true
  | some md =>
    (match md.grounding_chunks with | .bad => false | _ => true)
      && (match md.grounding_supports with | .bad => false | _ => true)

/-- The chunks contributed by one candidate (empty when its chunk iterable
raises, since the raise happens before any append). -/
def chunksOfCand (c : Candidate) : List Chunk :=
  match c.grounding_metadata with
  | none => []
  | some md =>
    match md.grounding_chunks with
    | .bad => []
    | ci => chunksOfIter ci

/-- The supports contributed by one candidate when nothing raises. -/
def supportsOfCand (c : Candidate) : List Support :=
  match c.grounding_metadata with
  | none => []
  | some md => supportsOfIter md.grounding_supports

/-- The extraction result on a list of candidates none of which raises:
concatenation of the per-candidate contributions. -/
def cleanExtract (cands : List Candidate) : List Chunk × List Support :=
  (cands.flatMap chunksOfCand, cands.flatMap supportsOfCand)

/-! ## History reader (`src/slack_poster.py`, `fetch_recent_urls`)

The URL extraction applies `re.findall` with the pattern
`<(https?://[^|>]+)(?:\|[^>]*)?>` to each qualifying mrkdwn text.  On this
pattern the regex engine is deterministic, and `findall` is modelled as a
left-to-right scan that, at each `<`, tries to match the bracketed hyperlink
and captures its URL group.
-/

/-- The `https?://` part of the pattern: consume the scheme, returning the
consumed prefix (part of the capture) and the remainder. -/
def matchProto (s : List Char) : Option (List Char × List Char) :=
  if "https://".data.isPrefixOf s then some ("https://".data, s.drop 8)
  else if "http://".data.isPrefixOf s then some ("http://".data, s.drop 7)
  else none

/-- The remainder of the pattern after `<`: `https?://[^|>]+` (the capture)
followed by an optional `\|[^>]*` and a closing `>`.  Returns the captured
URL and the text after the match. -/
def matchUrl (s : List Char) : Option (List Char × List Char) :=
  match matchProto s with
  | none => none
  | some (proto, s1) =>
    let body := s1.takeWhile (fun c => !(c == '|') && !(c == '>'))
    let s2 := s1.dropWhile (fun c => !(c == '|') && !(c == '>'))
    if body.isEmpty then none
    else
      match s2 with
      | '>' :: r => some (proto ++ body, r)
      | '|' :: r =>
        (match r.dropWhile (fun c => !(c == '>')) with
         | '>' :: r2 => some (proto ++ body, r2)
         | _ => none)
      | _ => none

theorem matchProto_length {s proto s1 : List Char}
    (h : matchProto s = some (proto, s1)) : s1.length + 7 ≤ s.length := by
  unfold matchProto at h
  split at h
  · next hp =>
    have : "https://".data <+: s := List.isPrefixOf_iff_prefix.mp hp
    have hlen : 8 ≤ s.length := by
      have := this.length_le
      simpa using this
    injection h with h1
    injection h1 with h1 h2
    subst h2
    simp only [List.length_drop]
    omega
  · split at h
    · next hp =>
      have : "http://".data <+: s := List.isPrefixOf_iff_prefix.mp hp
      have hlen : 7 ≤ s.length := by
        have := this.length_le
        simpa using this
      injection h with h1
      injection h1 with h1 h2
      subst h2
      simp only [List.length_drop]
      omega
    · exact absurd h (by simp)

theorem matchUrl_length {s url s' : List Char}
    (h : matchUrl s = some (url, s')) : s'.length < s.length := by
  unfold matchUrl at h
  cases hp : matchProto s with
  | none => rw [hp] at h; exact absurd h (by simp)
  | some v =>
    obtain ⟨proto, s1⟩ := v
    rw [hp] at h
    have h1 : s1.length + 7 ≤ s.length := matchProto_length hp
    have hdw : (s1.dropWhile (fun c => !(c == '|') && !(c == '>'))).length ≤ s1.length :=
      (List.dropWhile_sublist _).length_le
    simp only at h
    split at h
    · exact absurd h (by simp)
    · split at h
      · next r heq =>
        injection h with h1'
        injection h1' with _ h2
        subst h2
        have : r.length + 1 ≤ s1.length := by
          have := congrArg List.length heq
          simp only [List.length_cons] at this
          omega
        omega
      · next r heq =>
        have hr : r.length + 1 ≤ s1.length := by
          have := congrArg List.length heq
          simp only [List.length_cons] at this
          omega
        have hdw2 : (r.dropWhile (fun c => !(c == '>'))).length ≤ r.length :=
          (List.dropWhile_sublist _).length_le
        split at h
        · next r2 heq2 =>
          injection h with h1'
          injection h1' with _ h2
          subst h2
          have : r2.length + 1 ≤ r.length := by
            have := congrArg List.length heq2
            simp only [List.length_cons] at this
            omega
          omega
        · exact absurd h (by simp)
      · exact absurd h (by simp)

/-- `re.findall` of the URL pattern over a text: scan left to right, at each
`<` try the bracketed-hyperlink match, capture its URL group and continue
after the match; otherwise advance one character. -/
def urlFindall : List Char → List (List Char)
  | [] => []
  | c :: rest =>
    if c = '<' then
      match h : matchUrl rest with
      | some (url, rest') => url :: urlFindall rest'
      | none => urlFindall rest
    else urlFindall rest
termination_by s => s.length
decreasing_by
  · have := matchUrl_length h
    simp only [List.length_cons]
    omega
  · simp only [List.length_cons]
    omega
  · simp only [List.length_cons]
    omega

/-- One element of a message content block. -/
structure BlockElement where
  type : List Char
  text : List Char
deriving DecidableEq, Repr

/-- One content block of a retrieved message. -/
structure MsgBlock where
  type : List Char
  elements : List BlockElement
deriving DecidableEq, Repr

/-- One retrieved message. -/
structure Message where
  blocks : List MsgBlock
deriving DecidableEq, Repr

/-- The pure post-processing pass of `fetch_recent_urls`: for every message,
every `context` block, every `mrkdwn` element whose text starts with the link
glyph, collect the pattern's matches. -/
def extractUrlsFromMessages (msgs : List Message) : List (List Char) :=
  msgs.flatMap fun m =>
    m.blocks.flatMap fun b =>
      if b.type = "context".data then
        b.elements.flatMap fun e =>
          if e.type = "mrkdwn".data ∧ "🔗".data.isPrefixOf e.text then
            urlFindall e.text
          else []
      else []

/-- An abstract bracketed mrkdwn hyperlink, used to state what the URL
pattern extracts: `<URL|label>` when `label` is present, `<URL>` otherwise,
with `URL = http(s)://` followed by `rest`. -/
structure MrkdwnLink where
  secure : Bool
  rest : List Char
  label : Option (List Char)
deriving DecidableEq, Repr

/-- The URL portion of a link. -/
def linkUrl (l : MrkdwnLink) : List Char :=
  (if l.secure then "https://".data else "http://".data) ++ l.rest

/-- The mrkdwn rendering of a link: `<URL|label>` or `<URL>`. -/
def renderLink (l : MrkdwnLink) : List Char :=
  '<' :: (linkUrl l ++
    (match l.label with | some lab => '|' :: lab | none => []) ++ ['>'])

/-- A link matchable by the pattern: non-empty URL remainder without `|` or
`>`, and a label (if any) without `>`. -/
def wfLink (l : MrkdwnLink) : Bool :=
  !l.rest.isEmpty && l.rest.all (fun c => !(c == '|') && !(c == '>')) &&
    (match l.label with | some lab => lab.all (fun c => !(c == '>')) | none => true)

/-- Text with no `<`, hence on which the pattern cannot start a match. -/
def noLT (s : List Char) : Bool :=
  s.all (fun c => !(c == '<'))

/-- A mrkdwn text as an alternation of plain text and bracketed hyperlinks:
the initial text `s0`, then for each pair a rendered link followed by more
plain text. -/
def renderChain (s0 : List Char) : List (MrkdwnLink × List Char) → List Char
  | [] => s0
  | (l, sep) :: rest => s0 ++ renderLink l ++ renderChain sep rest

/-! ## External call outcomes and the per-topic run (`src/main.py`) -/

/-- The outcome of one outbound call: success, a `SlackApiError` (the only
exception type the poster catches), or any other exception. -/
inductive CallOutcome (α : Type)
  | ok (val : α)
  | apiErr (code : List Char)
  | exn (msg : List Char)

/-- `SlackPoster.fetch_recent_urls`: a `SlackApiError` from the history call
is caught and degrades to an empty list; any other exception propagates. -/
def fetchRecentUrls (o : CallOutcome (List Message)) : Except (List Char) (List (List Char)) :=
  match o with
  | .ok msgs => .ok (extractUrlsFromMessages msgs)
  | .apiErr _ => .ok []
  | .exn m => .error m

/-- Modelled from the spec: `fetch_recent_titles` is called by `main` but is
not part of the source snapshot (only `fetch_recent_urls` is).  Per §4.5 the
history reader's failure handling catches any error from the retrieval call
and degrades to an empty identifier list. -/
def fetchRecentTitles (o : CallOutcome (List (List Char))) : List (List Char) :=
  match o with
  | .ok l => l
  | _ => []

/-- `SlackPoster.post_news`: returns `True` on success and `False` on
`SlackApiError`; any other exception propagates. -/
def postNewsOutcome (o : CallOutcome Unit) : Except (List Char) Bool :=
  match o with
  | .ok _ => .ok true
  | .apiErr _ => .ok false
  | .exn m => .error m

/-- The external world of one topic's run: the history call outcome, the
model call outcome as a function of the exclusion list (`fetch_news` catches
nothing, so a raise propagates), and the post call outcome. -/
structure TopicEnv where
  historyOutcome : CallOutcome (List (List Char))
  fetchOutcome : List (List Char) → Except (List Char) (List NewsItem)
  postOutcome : CallOutcome Unit

/-- Whether a topic's post call succeeds. -/
def postSucceeds (t : TopicEnv) : Bool :=
  match t.postOutcome with
  | .ok _ => true
  | _ => false

/-- The topic loop of `main`: within the loop no exception is caught, so any
exception propagating from a per-topic call reaches the outer handler, which
returns exit code 1 without processing the remaining topics.  Returns the
exit code and, for each topic that ran to completion, its post result. -/
def mainLoop : List TopicEnv → Bool → List Bool → Int × List Bool
  | [], allSuccess, acc => (if allSuccess then 0 else 1, acc.reverse)
  | t :: rest, allSuccess, acc =>
    match t.fetchOutcome (fetchRecentTitles t.historyOutcome) with
    | .error _ => (1, acc.reverse)
    | .ok _items =>
      match postNewsOutcome t.postOutcome with
      | .error _ => (1, acc.reverse)
      | .ok s => mainLoop rest (allSuccess && s) (s :: acc)

/-- `main`: process the topics in order with `all_success` initially true. -/
def runMain (topics : List TopicEnv) : Int × List Bool :=
  mainLoop topics true []

/-! ## Lemmas: stripping -/

theorem dropWhile_idem (p : α → Bool) (l : List α) :
    (l.dropWhile p).dropWhile p = l.dropWhile p := by
  induction l with
  | nil => rfl
  | cons c t ih =>
    by_cases h : p c
    · simp [List.dropWhile_cons, h, ih]
    · simp [List.dropWhile_cons, h]

theorem head?_dropWhile_false (p : α → Bool) (l : List α) :
    ∀ c, (l.dropWhile p).head? = some c → p c = false := by
  induction l with
  | nil => intro c h; simp at h
  | cons a t ih =>
    intro c h
    rw [List.dropWhile_cons] at h
    by_cases hp : p a
    · rw [if_pos hp] at h
      exact ih c h
    · rw [if_neg hp] at h
      simp only [List.head?_cons, Option.some.injEq] at h
      subst h
      simpa using hp

theorem getLast?_dropWhile (p : α → Bool) (l : List α) (h : l.dropWhile p ≠ []) :
    (l.dropWhile p).getLast? = l.getLast? := by
  induction l with
  | nil => simp at h
  | cons a t ih =>
    rw [List.dropWhile_cons] at h ⊢
    by_cases hp : p a
    · simp only [hp, if_true] at h ⊢
      have ht : t ≠ [] := by
        intro he
        subst he
        simp at h
      rw [ih h]
      cases t with
      | nil => exact absurd rfl ht
      | cons b u => simp
    · simp [hp]

theorem dropWhile_eq_self_of_head (p : α → Bool) (l : List α) (c : α)
    (hc : l.head? = some c) (hp : p c = false) : l.dropWhile p = l := by
  cases l with
  | nil => rfl
  | cons a t =>
    simp only [List.head?_cons, Option.some_inj] at hc
    subst hc
    simp [List.dropWhile_cons, hp]

theorem pyStrip_idem (s : List Char) : pyStrip (pyStrip s) = pyStrip s := by
  unfold pyStrip
  set a := s.dropWhile pyIsSpace with ha
  set b := a.reverse.dropWhile pyIsSpace with hb
  by_cases hbe : b = []
  · simp [hbe]
  · have hbrev : b.reverse ≠ [] := by simpa using hbe
    -- the first character of `b.reverse` is the last of `b`, which is the
    -- head of `a` and therefore not whitespace
    have hlast : b.getLast? = a.head? := by
      rw [hb, getLast?_dropWhile _ _ (hb ▸ hbe)]
      simp
    obtain ⟨c, hc⟩ : ∃ c, a.head? = some c := by
      have hane : a ≠ [] := by
        intro he
        apply hbe
        rw [hb, he]
        simp
      cases hcc : a.head? with
      | none => rw [List.head?_eq_none_iff] at hcc; exact absurd hcc hane
      | some c => exact ⟨c, rfl⟩
    have hcns : pyIsSpace c = false := head?_dropWhile_false _ _ _ (ha ▸ hc)
    have h1 : b.reverse.dropWhile pyIsSpace = b.reverse := by
      apply dropWhile_eq_self_of_head _ _ c _ hcns
      rw [List.head?_reverse, hlast, hc]
    rw [h1, List.reverse_reverse]
    have h2 : b.dropWhile pyIsSpace = b := by
      by_cases hbh : ∃ d, b.head? = some d
      · obtain ⟨d, hd⟩ := hbh
        have : pyIsSpace d = false := head?_dropWhile_false _ _ _ (hb ▸ hd)
        exact dropWhile_eq_self_of_head _ _ d hd this
      · push_neg at hbh
        cases hbb : b with
        | nil => rfl
        | cons x u => exact absurd (by simp [hbb]) (hbh x)
    rw [h2]

/-! ## Lemmas: splitting and joining -/

theorem splitSep_ne_nil (sep s : List Char) : splitSep sep s ≠ [] := by
  cases s with
  | nil => rw [splitSep.eq_1]; simp
  | cons c rest =>
    rw [splitSep.eq_2]
    by_cases h : sep ≠ [] ∧ sep.isPrefixOf (c :: rest) = true
    · rw [dif_pos h]; simp
    · rw [dif_neg h]
      cases hh : splitSep sep rest <;> simp

theorem length_splitSep (sep : List Char) (s : List Char) :
    (splitSep sep s).length = countSep sep s + 1 := by
  induction s using splitSep.induct sep with
  | case1 => rw [splitSep.eq_1, countSep.eq_1]; rfl
  | case2 c rest h ih =>
    rw [splitSep.eq_2, countSep.eq_2, dif_pos h, dif_pos h]
    simp [ih]
  | case3 c rest h heq =>
    exact absurd heq (splitSep_ne_nil sep rest)
  | case4 c rest h p ps heq ih =>
    rw [splitSep.eq_2, countSep.eq_2, dif_neg h, dif_neg h, heq]
    rw [heq] at ih
    simpa using ih

theorem prefix_append_drop {sep s : List Char} (h : sep.isPrefixOf s) :
    sep ++ List.drop sep.length s = s := by
  obtain ⟨t, ht⟩ := List.isPrefixOf_iff_prefix.mp h
  obtain ⟨rfl⟩ : sep ++ t = s := ht
  rw [List.drop_left]

theorem joinSep_splitSep (sep : List Char) (s : List Char) :
    joinSep sep (splitSep sep s) = s := by
  induction s using splitSep.induct sep with
  | case1 => rw [splitSep.eq_1]; rfl
  | case2 c rest h ih =>
    rw [splitSep.eq_2, dif_pos h]
    obtain ⟨p, ps, hps⟩ :
        ∃ p ps, splitSep sep (List.drop sep.length (c :: rest)) = p :: ps := by
      cases hh : splitSep sep (List.drop sep.length (c :: rest)) with
      | nil => exact absurd hh (splitSep_ne_nil _ _)
      | cons p ps => exact ⟨p, ps, rfl⟩
    rw [hps]
    rw [hps] at ih
    show [] ++ sep ++ joinSep sep (p :: ps) = c :: rest
    rw [List.nil_append, ih]
    exact prefix_append_drop h.2
  | case3 c rest h heq =>
    exact absurd heq (splitSep_ne_nil sep rest)
  | case4 c rest h p ps heq ih =>
    rw [splitSep.eq_2, dif_neg h, heq]
    rw [heq] at ih
    cases ps with
    | nil =>
      show c :: p = c :: rest
      simp only [joinSep] at ih
      rw [ih]
    | cons q qs =>
      show (c :: p) ++ sep ++ joinSep sep (q :: qs) = c :: rest
      simp only [joinSep] at ih
      simp only [List.cons_append, List.append_assoc] at ih ⊢
      rw [ih]

/-! ## Lemmas: URI deduplication -/

theorem dedupeLoop_eq_spec : ∀ (l : List Chunk) (seen : List (List Char)),
    dedupeLoop l seen = dedupeByUriSpec (l.filter (fun c => decide (c.uri ∉ seen)))
  | [], seen => by simp [dedupeLoop, dedupeByUriSpec]
  | c :: rest, seen => by
    rw [dedupeLoop]
    by_cases hmem : c.uri ∈ seen
    · rw [if_pos (Or.inr hmem)]
      rw [List.filter_cons_of_neg (by simpa using hmem)]
      exact dedupeLoop_eq_spec rest seen
    · rw [List.filter_cons_of_pos (by simpa using hmem)]
      by_cases hnil : c.uri = []
      · rw [if_pos (Or.inl hnil)]
        rw [dedupeByUriSpec.eq_def]
        simp only [hnil, if_pos]
        rw [dedupeLoop_eq_spec rest seen]
      · rw [if_neg (by tauto)]
        rw [dedupeByUriSpec.eq_def]
        simp only [hnil, if_neg, ite_false]
        congr 1
        rw [dedupeLoop_eq_spec rest (c.uri :: seen)]
        congr 1
        rw [List.filter_filter]
        apply List.filter_congr
        intro d _
        by_cases h1 : d.uri = c.uri <;> by_cases h2 : d.uri ∈ seen <;> simp [h1, h2]

theorem dedupeSources_eq_spec (chunks : List Chunk) :
    dedupeSources chunks = dedupeByUriSpec chunks := by
  rw [dedupeSources, dedupeLoop_eq_spec]
  congr 1
  apply List.filter_eq_self.mpr
  intro c _
  simp

theorem dedupeByUriSpec_mem : ∀ (l : List Chunk), ∀ c ∈ dedupeByUriSpec l, c ∈ l := by
  intro l
  induction l using dedupeByUriSpec.induct with
  | case1 => intro c hc; simp [dedupeByUriSpec] at hc
  | case2 c rest hnil ih =>
    intro d hd
    rw [dedupeByUriSpec.eq_def] at hd
    simp only [hnil, if_pos] at hd
    exact List.mem_cons_of_mem _ (ih d hd)
  | case3 c rest hnil ih =>
    intro d hd
    rw [dedupeByUriSpec.eq_def] at hd
    simp only [hnil, if_neg, ite_false] at hd
    rcases List.mem_cons.mp hd with h | h
    · exact h ▸ List.mem_cons_self _ _
    · exact List.mem_cons_of_mem _ (List.mem_of_mem_filter (ih d h))

theorem dedupeByUriSpec_uri_ne : ∀ (l : List Chunk), ∀ c ∈ dedupeByUriSpec l, c.uri ≠ [] := by
  intro l
  induction l using dedupeByUriSpec.induct with
  | case1 => intro c hc; simp [dedupeByUriSpec] at hc
  | case2 c rest hnil ih =>
    intro d hd
    rw [dedupeByUriSpec.eq_def] at hd
    simp only [hnil, if_pos] at hd
    exact ih d hd
  | case3 c rest hnil ih =>
    intro d hd
    rw [dedupeByUriSpec.eq_def] at hd
    simp only [hnil, if_neg, ite_false] at hd
    rcases List.mem_cons.mp hd with h | h
    · exact h ▸ hnil
    · exact ih d h

theorem dedupeByUriSpec_nodup : ∀ (l : List Chunk),
    ((dedupeByUriSpec l).map (fun c => c.uri)).Nodup := by
  intro l
  induction l using dedupeByUriSpec.induct with
  | case1 => simp [dedupeByUriSpec]
  | case2 c rest hnil ih =>
    rw [dedupeByUriSpec.eq_def]
    simp only [hnil, if_pos]
    exact ih
  | case3 c rest hnil ih =>
    rw [dedupeByUriSpec.eq_def]
    simp only [hnil, if_neg, ite_false, List.map_cons]
    refine List.nodup_cons.mpr ⟨?_, ih⟩
    intro hmem
    obtain ⟨d, hd, hde⟩ := List.mem_map.mp hmem
    have := dedupeByUriSpec_mem _ d hd
    have hne := List.of_mem_filter this
    rw [hde] at hne
    simp at hne

/-! ## Lemmas: index collection and resolution -/

theorem pyGet_mem {l : List α} {i : Int} {a : α} (h : pyGet l i = some a) : a ∈ l := by
  simp only [pyGet] at h
  split at h
  · split at h
    · exact absurd h (by simp)
    · exact List.getElem?_mem h
  · exact List.getElem?_mem h

theorem pyGet_isSome_of_bounds {l : List α} {i : Int}
    (h1 : -(l.length : Int) ≤ i) (h2 : i < l.length) : (pyGet l i).isSome = true := by
  simp only [pyGet]
  by_cases hneg : i < 0
  · rw [if_pos hneg, if_neg (by omega : ¬(i + (l.length : Int) < 0))]
    have hlt : (i + (l.length : Int)).toNat < l.length := by omega
    simp [List.getElem?_eq_getElem hlt]
  · rw [if_neg hneg, if_neg hneg]
    have hlt : i.toNat < l.length := by omega
    simp [List.getElem?_eq_getElem hlt]

theorem resolveIndices_ok_spec (chunks : List Chunk) :
    ∀ (idxs : List Int) (seen : List (List Char)) (src : List Chunk),
      resolveIndices chunks idxs seen = .ok src →
      ∃ resolved : List Chunk, (∀ c ∈ resolved, c ∈ chunks) ∧ src = dedupeLoop resolved seen := by
  intro idxs
  induction idxs with
  | nil =>
    intro seen src h
    simp only [resolveIndices] at h
    injection h with h
    exact ⟨[], by simp, by simp [dedupeLoop, h.symm]⟩
  | cons idx rest ih =>
    intro seen src h
    rw [resolveIndices] at h
    cases hg : pyGet chunks idx with
    | none =>
      simp only [hg] at h
      exact absurd h (by simp)
    | some c =>
      simp only [hg] at h
      have hcmem : c ∈ chunks := pyGet_mem hg
      by_cases hskip : c.uri = [] ∨ c.uri ∈ seen
      · rw [if_pos hskip] at h
        obtain ⟨resolved, hres, hsrc⟩ := ih seen src h
        refine ⟨c :: resolved, ?_, ?_⟩
        · intro d hd
          rcases List.mem_cons.mp hd with h' | h'
          · exact h' ▸ hcmem
          · exact hres d h'
        · rw [hsrc, dedupeLoop, if_pos hskip]
      · rw [if_neg hskip] at h
        cases hrec : resolveIndices chunks rest (c.uri :: seen) with
        | error e => rw [hrec] at h; exact absurd h (by simp)
        | ok tail =>
          rw [hrec] at h
          injection h with h
          obtain ⟨resolved, hres, hsrc⟩ := ih (c.uri :: seen) tail hrec
          refine ⟨c :: resolved, ?_, ?_⟩
          · intro d hd
            rcases List.mem_cons.mp hd with h' | h'
            · exact h' ▸ hcmem
            · exact hres d h'
          · rw [dedupeLoop, if_neg hskip, ← hsrc, h]

theorem resolveIndices_isOk (chunks : List Chunk) :
    ∀ (idxs : List Int) (seen : List (List Char)),
      (∀ i ∈ idxs, -(chunks.length : Int) ≤ i ∧ i < chunks.length) →
      ∃ src, resolveIndices chunks idxs seen = .ok src := by
  intro idxs
  induction idxs with
  | nil => intro seen _; exact ⟨[], rfl⟩
  | cons idx rest ih =>
    intro seen hb
    have hidx := hb idx (List.mem_cons_self _ _)
    have hsome := pyGet_isSome_of_bounds hidx.1 hidx.2
    cases hg : pyGet chunks idx with
    | none => rw [hg] at hsome; simp at hsome
    | some c =>
      by_cases hskip : c.uri = [] ∨ c.uri ∈ seen
      · obtain ⟨src, hsrc⟩ := ih seen (fun i hi => hb i (List.mem_cons_of_mem _ hi))
        refine ⟨src, ?_⟩
        rw [resolveIndices]
        simp only [hg]
        rw [if_pos hskip]
        exact hsrc
      · obtain ⟨src, hsrc⟩ := ih (c.uri :: seen) (fun i hi => hb i (List.mem_cons_of_mem _ hi))
        refine ⟨c :: src, ?_⟩
        rw [resolveIndices]
        simp only [hg]
        rw [if_neg hskip, hsrc]

theorem mem_collectIndices_iff (partText : List Char) (chunks : List Chunk)
    (supports : List Support) (x : Int) :
    x ∈ collectIndices partText chunks supports ↔
      ∃ s, s ∈ supports ∧ supportMatches partText s = true ∧
        x ∈ s.chunk_indices ∧ x < (chunks.length : Int) := by
  have general : ∀ (l : List Support) (acc : List Int),
      x ∈ l.foldl
        (fun acc s =>
          if supportMatches partText s then
            acc ++ s.chunk_indices.filter (fun idx => decide (idx < (chunks.length : Int)))
          else acc)
        acc ↔
      x ∈ acc ∨ ∃ s, s ∈ l ∧ supportMatches partText s = true ∧
        x ∈ s.chunk_indices ∧ x < (chunks.length : Int) := by
    intro l
    induction l with
    | nil => intro acc; simp
    | cons s ss ihl =>
      intro acc
      rw [List.foldl_cons, ihl]
      by_cases hm : supportMatches partText s = true
      · simp only [hm, if_true, List.mem_append, List.mem_filter, decide_eq_true_eq]
        constructor
        · rintro ((h | h) | h)
          · exact Or.inl h
          · exact Or.inr ⟨s, List.mem_cons_self _ _, hm, h.1, h.2⟩
          · obtain ⟨t, ht, h1, h2, h3⟩ := h
            exact Or.inr ⟨t, List.mem_cons_of_mem _ ht, h1, h2, h3⟩
        · rintro (h | ⟨t, ht, h1, h2, h3⟩)
          · exact Or.inl (Or.inl h)
          · rcases List.mem_cons.mp ht with rfl | ht'
            · exact Or.inl (Or.inr ⟨h2, h3⟩)
            · exact Or.inr ⟨t, ht', h1, h2, h3⟩
      · simp only [hm, if_false, Bool.false_eq_true]
        constructor
        · rintro (h | ⟨t, ht, h1, h2, h3⟩)
          · exact Or.inl h
          · exact Or.inr ⟨t, List.mem_cons_of_mem _ ht, h1, h2, h3⟩
        · rintro (h | ⟨t, ht, h1, h2, h3⟩)
          · exact Or.inl h
          · rcases List.mem_cons.mp ht with rfl | ht'
            · exact absurd h1 hm
            · exact Or.inr ⟨t, ht', h1, h2, h3⟩
  rw [collectIndices, general]
  simp

theorem collectIndices_skip (partText : List Char) (chunks : List Chunk)
    (l1 l2 : List Support) (s : Support) (hs : supportMatches partText s = false) :
    collectIndices partText chunks (l1 ++ s :: l2) = collectIndices partText chunks (l1 ++ l2) := by
  unfold collectIndices
  rw [List.foldl_append, List.foldl_append, List.foldl_cons]
  congr 1
  simp [hs]

/-! ## Lemmas: item assembly -/

theorem getLast?_cons_of_ne (a : α) (l : List α) (h : l ≠ []) :
    (a :: l).getLast? = l.getLast? := by
  cases l with
  | nil => exact absurd rfl h
  | cons b u => exact List.getLast?_cons_cons

theorem assembleLoop_impression (chunks : List Chunk) (supports : List Support) (n : Nat) :
    ∀ (ps : List (List Char)) (i : Nat) (items : List NewsItem),
      i + ps.length = n →
      assembleLoop chunks supports n i ps = .ok items →
      items.countP (fun it => it.is_impression) ≤ 1 ∧
      ∀ it ∈ items, it.is_impression = true → items.getLast? = some it ∧ it.sources = [] := by
  intro ps
  induction ps with
  | nil =>
    intro i items _ h
    simp only [assembleLoop] at h
    injection h with h
    subst h
    simp
  | cons p rest ih =>
    intro i items hn h
    simp only [assembleLoop] at h
    by_cases hpt : pyStrip p = []
    · rw [if_pos hpt] at h
      refine ih (i + 1) items ?_ h
      simp only [List.length_cons] at hn
      omega
    · rw [if_neg hpt] at h
      cases hf : findSourcesForPart (pyStrip p) chunks supports with
      | error e => simp only [hf] at h; exact absurd h (by simp)
      | ok srcs =>
        simp only [hf] at h
        cases hr : assembleLoop chunks supports n (i + 1) rest with
        | error e => simp only [hr] at h; exact absurd h (by simp)
        | ok tail =>
          simp only [hr] at h
          injection h with h
          subst h
          by_cases hrest : rest = []
          · subst hrest
            simp only [assembleLoop] at hr
            injection hr with hr
            subst hr
            have hi : i = n - 1 := by
              simp only [List.length_cons, List.length_nil] at hn
              omega
            constructor
            · simp [List.countP_cons, mkNewsItem, hi]
            · intro it hit himp
              simp only [List.mem_singleton] at hit
              subst hit
              refine ⟨by simp, ?_⟩
              show (if i = n - 1 then [] else srcs) = []
              rw [if_pos hi]
          · have hne2 : ¬(i = n - 1) := by
              have hlen : 0 < rest.length := List.length_pos.mpr hrest
              simp only [List.length_cons] at hn
              omega
            obtain ⟨hc, hspec⟩ := ih (i + 1) tail
              (by simp only [List.length_cons] at hn; omega) hr
            constructor
            · rw [List.countP_cons]
              have himpf : (mkNewsItem (pyStrip p)
                  (if i = n - 1 then [] else srcs) (decide (i = n - 1))).is_impression = false := by
                simp [mkNewsItem, hne2]
              rw [himpf]
              simpa using hc
            · intro it hit himp
              rcases List.mem_cons.mp hit with rfl | hmem
              · exfalso
                simp only [mkNewsItem] at himp
                rw [decide_eq_true_eq] at himp
                exact hne2 himp
              · obtain ⟨hl, hs⟩ := hspec it hmem himp
                refine ⟨?_, hs⟩
                rw [getLast?_cons_of_ne _ tail (List.ne_nil_of_mem hmem)]
                exact hl

theorem assembleLoop_texts (chunks : List Chunk) (supports : List Support) (n : Nat) :
    ∀ (ps : List (List Char)) (i : Nat) (items : List NewsItem),
      (∀ p ∈ ps, pyStrip p ≠ []) →
      assembleLoop chunks supports n i ps = .ok items →
      items.map (fun it => it.text) = ps.map pyStrip := by
  intro ps
  induction ps with
  | nil =>
    intro i items _ h
    simp only [assembleLoop] at h
    injection h with h
    subst h
    simp
  | cons p rest ih =>
    intro i items hne h
    simp only [assembleLoop] at h
    have hpt : pyStrip p ≠ [] := hne p (List.mem_cons_self _ _)
    rw [if_neg hpt] at h
    cases hf : findSourcesForPart (pyStrip p) chunks supports with
    | error e => simp only [hf] at h; exact absurd h (by simp)
    | ok srcs =>
      simp only [hf] at h
      cases hr : assembleLoop chunks supports n (i + 1) rest with
      | error e => simp only [hr] at h; exact absurd h (by simp)
      | ok tail =>
        simp only [hr] at h
        injection h with h
        subst h
        simp only [List.map_cons]
        rw [ih (i + 1) tail (fun q hq => hne q (List.mem_cons_of_mem _ hq)) hr]
        congr 1
        show pyStrip (pyStrip p) = pyStrip p
        exact pyStrip_idem p

theorem itemBlocks_impression (it : NewsItem) (h : it.is_impression = true) :
    ∀ b ∈ itemBlocks it, b.isContext = false := by
  intro b hb
  simp only [itemBlocks, h] at hb
  simp at hb
  rcases hb with rfl | rfl <;> rfl

/-! ## Claim C1 -/

/-- C1: for every response text and `(chunks, supports)` pair, at most one
item returned by `_parse_news_items` has `is_impression = true`; when such an
item exists it is the last item and its sources are empty; and the renderer
emits no context (source-link) block for an impression item. -/
theorem C1_impression_last_unsourced (text : List Char) (chunks : List Chunk)
    (supports : List Support) (items : List NewsItem)
    (h : parseNewsItems text chunks supports = .ok items) :
    items.countP (fun it => it.is_impression) ≤ 1 ∧
    ∀ it ∈ items, it.is_impression = true →
      items.getLast? = some it ∧ it.sources = [] ∧
      ∀ b ∈ itemBlocks it, b.isContext = false := by
  unfold parseNewsItems at h
  by_cases hp : (splitSep SEPARATOR text).length ≤ 1
  · rw [if_pos hp] at h
    injection h with h
    subst h
    constructor
    · simp [mkNewsItem]
    · intro it hit himp
      simp only [List.mem_singleton] at hit
      subst hit
      simp only [mkNewsItem] at himp
      exact absurd himp (by simp)
  · rw [if_neg hp] at h
    obtain ⟨hc, hspec⟩ :=
      assembleLoop_impression chunks supports (splitSep SEPARATOR text).length
        (splitSep SEPARATOR text) 0 items (by simp) h
    refine ⟨hc, ?_⟩
    intro it hit himp
    obtain ⟨hl, hs⟩ := hspec it hit himp
    exact ⟨hl, hs, itemBlocks_impression it himp⟩

/-- Witness for C1 on the three-segment scenario text. -/
theorem C1_witness :
    parseNewsItems "News A\n---\nNews B\n---\nTrend".data [] [] =
      .ok [⟨"News A".data, [], false⟩, ⟨"News B".data, [], false⟩,
           ⟨"Trend".data, [], true⟩] ∧
    (([⟨"News A".data, [], false⟩, ⟨"News B".data, [], false⟩,
       ⟨"Trend".data, [], true⟩] : List NewsItem).countP (fun it => it.is_impression) ≤ 1 ∧
      ∀ it ∈ ([⟨"News A".data, [], false⟩, ⟨"News B".data, [], false⟩,
               ⟨"Trend".data, [], true⟩] : List NewsItem), it.is_impression = true →
        ([⟨"News A".data, [], false⟩, ⟨"News B".data, [], false⟩,
          ⟨"Trend".data, [], true⟩] : List NewsItem).getLast? = some it ∧
          it.sources = [] ∧ ∀ b ∈ itemBlocks it, b.isContext = false) := by
  have hsplit : splitSep SEPARATOR "News A\n---\nNews B\n---\nTrend".data =
      ["News A\n".data, "\nNews B\n".data, "\nTrend".data] := by
    simp [splitSep, List.isPrefixOf, SEPARATOR]
  have hparse : parseNewsItems "News A\n---\nNews B\n---\nTrend".data [] [] =
      .ok [⟨"News A".data, [], false⟩, ⟨"News B".data, [], false⟩,
           ⟨"Trend".data, [], true⟩] := by
    simp only [parseNewsItems, hsplit]
    decide
  exact ⟨hparse, C1_impression_last_unsourced _ _ _ _ hparse⟩

/-! ## Claim C3 -/

/-- C3 counterexample: the text `"a---"` contains one separator occurrence,
so the claim predicts 1 + 1 = 2 items, but the trailing segment is blank and
is discarded, so `_parse_news_items` returns a single item. -/
theorem C3_counterexample :
    countSep SEPARATOR "a---".data = 1 ∧
    parseNewsItems "a---".data [] [] = .ok [⟨['a'], [], false⟩] ∧
    ([(⟨['a'], [], false⟩ : NewsItem)].length ≠ countSep SEPARATOR "a---".data + 1) := by
  have h1 : countSep SEPARATOR "a---".data = 1 := by
    simp [countSep, SEPARATOR, List.isPrefixOf]
  have hsplit : splitSep SEPARATOR "a---".data = [['a'], []] := by
    simp [splitSep, SEPARATOR, List.isPrefixOf]
  refine ⟨h1, ?_, by rw [h1]; decide⟩
  simp only [parseNewsItems, hsplit]
  decide

/-- C3 (amended): for a text with `k ≥ 1` separator occurrences none of whose
raw segments is blank, parsing yields exactly `k + 1` trimmed non-empty items
whose texts are the per-segment trims of the raw split, and re-joining the
raw split with the separator reproduces the original text (so re-joining the
item texts reproduces it up to per-segment whitespace trimming). -/
theorem C3_segmentation_roundtrip (text : List Char) (chunks : List Chunk)
    (supports : List Support) (items : List NewsItem)
    (hk : 1 ≤ countSep SEPARATOR text)
    (hnb : ∀ p ∈ splitSep SEPARATOR text, pyStrip p ≠ [])
    (h : parseNewsItems text chunks supports = .ok items) :
    items.length = countSep SEPARATOR text + 1 ∧
    items.map (fun it => it.text) = (splitSep SEPARATOR text).map pyStrip ∧
    (∀ it ∈ items, it.text ≠ [] ∧ pyStrip it.text = it.text) ∧
    joinSep SEPARATOR (splitSep SEPARATOR text) = text := by
  have hlen := length_splitSep SEPARATOR text
  have hgt : ¬(splitSep SEPARATOR text).length ≤ 1 := by omega
  unfold parseNewsItems at h
  rw [if_neg hgt] at h
  have hmap := assembleLoop_texts chunks supports _ _ 0 items hnb h
  refine ⟨?_, hmap, ?_, joinSep_splitSep _ _⟩
  · have hl := congrArg List.length hmap
    simp only [List.length_map] at hl
    omega
  · intro it hit
    have hmem : it.text ∈ items.map (fun it => it.text) :=
      List.mem_map_of_mem _ hit
    rw [hmap] at hmem
    obtain ⟨p, hp, hpe⟩ := List.mem_map.mp hmem
    constructor
    · rw [← hpe]; exact hnb p hp
    · rw [← hpe]; exact pyStrip_idem p

/-- Witness for C3 (amended) on a text with two separators and no blank
segments. -/
theorem C3_witness :
    1 ≤ countSep SEPARATOR "a --- b --- c".data ∧
    (∀ p ∈ splitSep SEPARATOR "a --- b --- c".data, pyStrip p ≠ []) ∧
    parseNewsItems "a --- b --- c".data [] [] =
      .ok [⟨['a'], [], false⟩, ⟨['b'], [], false⟩, ⟨['c'], [], true⟩] ∧
    (([⟨['a'], [], false⟩, ⟨['b'], [], false⟩, ⟨['c'], [], true⟩] :
        List NewsItem).length = countSep SEPARATOR "a --- b --- c".data + 1 ∧
      ([⟨['a'], [], false⟩, ⟨['b'], [], false⟩, ⟨['c'], [], true⟩] :
          List NewsItem).map (fun it => it.text) =
        (splitSep SEPARATOR "a --- b --- c".data).map pyStrip ∧
      (∀ it ∈ ([⟨['a'], [], false⟩, ⟨['b'], [], false⟩, ⟨['c'], [], true⟩] :
          List NewsItem), it.text ≠ [] ∧ pyStrip it.text = it.text) ∧
      joinSep SEPARATOR (splitSep SEPARATOR "a --- b --- c".data) =
        "a --- b --- c".data) := by
  have hsplit : splitSep SEPARATOR "a --- b --- c".data =
      ["a ".data, " b ".data, " c".data] := by
    simp [splitSep, SEPARATOR, List.isPrefixOf]
  have hcount : countSep SEPARATOR "a --- b --- c".data = 2 := by
    simp [countSep, SEPARATOR, List.isPrefixOf]
  have hk : 1 ≤ countSep SEPARATOR "a --- b --- c".data := by omega
  have hnb : ∀ p ∈ splitSep SEPARATOR "a --- b --- c".data, pyStrip p ≠ [] := by
    rw [hsplit]; decide
  have hparse : parseNewsItems "a --- b --- c".data [] [] =
      .ok [⟨['a'], [], false⟩, ⟨['b'], [], false⟩, ⟨['c'], [], true⟩] := by
    simp only [parseNewsItems, hsplit]
    decide
  exact ⟨hk, hnb, hparse, C3_segmentation_roundtrip _ _ _ _ hk hnb hparse⟩

/-! ## Claim C4 -/

/-- C4: when the separator does not occur in the text, `_parse_news_items`
returns exactly one item: the stripped whole text, with `is_impression =
false`, whose sources are all chunks with a non-empty URI deduplicated by URI
in first-seen chunk order. -/
theorem C4_no_separator_single_item (text : List Char) (chunks : List Chunk)
    (supports : List Support) (h : countSep SEPARATOR text = 0) :
    parseNewsItems text chunks supports =
      .ok [⟨pyStrip text, dedupeByUriSpec chunks, false⟩] := by
  have hlen := length_splitSep SEPARATOR text
  unfold parseNewsItems
  rw [if_pos (by omega)]
  simp [mkNewsItem, dedupeSources_eq_spec]

/-- Witness for C4: separator-free text with a duplicate URI and an
empty-URI chunk. -/
theorem C4_witness :
    countSep SEPARATOR "hello world".data = 0 ∧
    parseNewsItems "hello world".data
        [⟨"A".data, "u".data⟩, ⟨"B".data, "u".data⟩, ⟨"C".data, []⟩] [] =
      .ok [⟨"hello world".data, [⟨"A".data, "u".data⟩], false⟩] := by
  have h0 : countSep SEPARATOR "hello world".data = 0 := by
    simp [countSep, SEPARATOR, List.isPrefixOf]
  have hded : dedupeByUriSpec
      [⟨"A".data, "u".data⟩, ⟨"B".data, "u".data⟩, ⟨"C".data, []⟩] =
      [⟨"A".data, "u".data⟩] := by
    simp [dedupeByUriSpec]
  have := C4_no_separator_single_item "hello world".data
    [⟨"A".data, "u".data⟩, ⟨"B".data, "u".data⟩, ⟨"C".data, []⟩] [] h0
  rw [hded] at this
  refine ⟨h0, ?_⟩
  rw [this]
  decide

/-! ## Claim C5 -/

/-- C5: every chunk in a successfully computed source list is an element of
the input chunk list and has a non-empty URI; the URIs are pairwise distinct;
and the list is the first-seen-order URI deduplication of a sequence of
chunks resolved from the input list. -/
theorem C5_sources_wellformed (partText : List Char) (chunks : List Chunk)
    (supports : List Support) (sources : List Chunk)
    (h : findSourcesForPart partText chunks supports = .ok sources) :
    (∀ c ∈ sources, c ∈ chunks ∧ c.uri ≠ []) ∧
    (sources.map (fun c => c.uri)).Nodup ∧
    ∃ resolved : List Chunk, (∀ c ∈ resolved, c ∈ chunks) ∧
      sources = dedupeByUriSpec resolved := by
  unfold findSourcesForPart at h
  obtain ⟨resolved, hres, hsrc⟩ := resolveIndices_ok_spec chunks _ _ _ h
  have hd : sources = dedupeByUriSpec resolved := by
    rw [hsrc, dedupeLoop_eq_spec]
    congr 1
    apply List.filter_eq_self.mpr
    intro c _
    simp
  refine ⟨?_, ?_, resolved, hres, hd⟩
  · intro c hc
    rw [hd] at hc
    exact ⟨hres c (dedupeByUriSpec_mem _ c hc), dedupeByUriSpec_uri_ne _ c hc⟩
  · rw [hd]
    exact dedupeByUriSpec_nodup _

/-- Witness for C5: two chunks sharing one URI, both indexed by a matching
support. -/
theorem C5_witness :
    findSourcesForPart "abcdefghijkl".data
        [⟨"A".data, "u".data⟩, ⟨"B".data, "u".data⟩]
        [⟨[0, 1], [], some ⟨0, 0, "abcdefghijkl".data⟩⟩] =
      .ok [⟨"A".data, "u".data⟩] ∧
    ((∀ c ∈ ([⟨"A".data, "u".data⟩] : List Chunk),
        c ∈ ([⟨"A".data, "u".data⟩, ⟨"B".data, "u".data⟩] : List Chunk) ∧ c.uri ≠ []) ∧
      (([⟨"A".data, "u".data⟩] : List Chunk).map (fun c => c.uri)).Nodup ∧
      ∃ resolved : List Chunk,
        (∀ c ∈ resolved, c ∈ ([⟨"A".data, "u".data⟩, ⟨"B".data, "u".data⟩] : List Chunk)) ∧
        ([⟨"A".data, "u".data⟩] : List Chunk) = dedupeByUriSpec resolved) := by
  have h : findSourcesForPart "abcdefghijkl".data
      [⟨"A".data, "u".data⟩, ⟨"B".data, "u".data⟩]
      [⟨[0, 1], [], some ⟨0, 0, "abcdefghijkl".data⟩⟩] =
      .ok [⟨"A".data, "u".data⟩] := by decide
  exact ⟨h, C5_sources_wellformed _ _ _ _ h⟩

/-! ## Claim C2 -/

/-- C2 counterexample: a support whose segment text has length exactly 10 —
the minimum length, so "length at least the minimum length" holds — and is a
substring of the item text, with an in-range chunk index, contributes nothing:
the working index set stays empty and the attributor returns no sources,
although the claim requires its index 0 to be unioned in. -/
theorem C2_counterexample :
    (segTextOf ⟨[0], [], some ⟨0, 0, "abcdefghij".data⟩⟩ ≠ [] ∧
      (segTextOf ⟨[0], [], some ⟨0, 0, "abcdefghij".data⟩⟩).length =
        MIN_SEGMENT_TEXT_LENGTH ∧
      isSubstring (segTextOf ⟨[0], [], some ⟨0, 0, "abcdefghij".data⟩⟩)
        "abcdefghij".data = true ∧
      (0 : Int) < (([⟨"T".data, "u".data⟩] : List Chunk).length : Int)) ∧
    collectIndices "abcdefghij".data [⟨"T".data, "u".data⟩]
      [⟨[0], [], some ⟨0, 0, "abcdefghij".data⟩⟩] = [] ∧
    findSourcesForPart "abcdefghij".data [⟨"T".data, "u".data⟩]
      [⟨[0], [], some ⟨0, 0, "abcdefghij".data⟩⟩] = .ok [] := by
  decide

/-- C2 (amended): a support whose segment text is non-empty, *strictly longer
than* the minimum length 10, and a substring of the item text has all of its
in-range chunk indices (those `< len(chunks)`) unioned into the working index
set; a support with no segment or with segment text of length at most 10
contributes no chunk indices. -/
theorem C2_length_threshold (partText : List Char) (chunks : List Chunk)
    (l1 l2 : List Support) (s : Support) :
    ((segTextOf s ≠ [] ∧ MIN_SEGMENT_TEXT_LENGTH < (segTextOf s).length ∧
        isSubstring (segTextOf s) partText = true) →
      ∀ idx ∈ s.chunk_indices, idx < (chunks.length : Int) →
        idx ∈ collectIndices partText chunks (l1 ++ s :: l2)) ∧
    ((s.segment = none ∨ (segTextOf s).length ≤ MIN_SEGMENT_TEXT_LENGTH) →
      collectIndices partText chunks (l1 ++ s :: l2) =
        collectIndices partText chunks (l1 ++ l2)) := by
  constructor
  · rintro ⟨h1, h2, h3⟩ idx hidx hlt
    rw [mem_collectIndices_iff]
    refine ⟨s, by simp, ?_, hidx, hlt⟩
    unfold supportMatches
    rw [h3]
    simp [h1, h2]
  · intro hbad
    apply collectIndices_skip
    unfold supportMatches
    rcases hbad with hb | hb
    · simp [segTextOf, hb]
    · have hlt : ¬MIN_SEGMENT_TEXT_LENGTH < (segTextOf s).length := by omega
      simp [hlt]

/-- Witness for C2 (amended): an 11-character segment text is attributed, a
9-character one contributes nothing. -/
theorem C2_witness :
    (0 : Int) ∈ collectIndices "abcdefghijk".data [⟨"T".data, "u".data⟩]
      ([] ++ (⟨[0], [], some ⟨0, 0, "abcdefghijk".data⟩⟩ : Support) :: []) ∧
    collectIndices "abcdefghijk".data [⟨"T".data, "u".data⟩]
        ([] ++ (⟨[0], [], some ⟨0, 0, "abcdefghi".data⟩⟩ : Support) :: []) =
      collectIndices "abcdefghijk".data [⟨"T".data, "u".data⟩] ([] ++ []) := by
  constructor
  · exact (C2_length_threshold "abcdefghijk".data [⟨"T".data, "u".data⟩] [] []
      ⟨[0], [], some ⟨0, 0, "abcdefghijk".data⟩⟩).1
      ⟨by decide, by decide, by decide⟩ 0 (by decide) (by decide)
  · exact (C2_length_threshold "abcdefghijk".data [⟨"T".data, "u".data⟩] [] []
      ⟨[0], [], some ⟨0, 0, "abcdefghi".data⟩⟩).2 (Or.inr (by decide))

/-! ## Claim C10 -/

/-- C10 counterexample: a matching support carrying chunk index `-2` with a
single chunk passes the `idx < len(chunks)` guard, and resolution then raises
`IndexError` — `_find_sources_for_part` does not return without error. -/
theorem C10_counterexample :
    findSourcesForPart "abcdefghijkl".data [⟨"T".data, "u".data⟩]
      [⟨[-2], [], some ⟨0, 0, "abcdefghijkl".data⟩⟩] = .error .indexError := by
  decide

/-- C10 (amended): indices at least `-len(chunks)` never cause an error: the
guard skips every index `≥ len(chunks)`, and every collected index resolves
(negative indices in `[-len, 0)` resolve Python-style from the end).  Indices
below `-len(chunks)` are the only ones that raise. -/
theorem C10_index_guard (partText : List Char) (chunks : List Chunk)
    (supports : List Support)
    (h : ∀ s ∈ supports, ∀ idx ∈ s.chunk_indices, -(chunks.length : Int) ≤ idx) :
    (∃ sources, findSourcesForPart partText chunks supports = .ok sources) ∧
    ∀ idx ∈ collectIndices partText chunks supports, idx < (chunks.length : Int) := by
  have hup : ∀ idx ∈ collectIndices partText chunks supports,
      idx < (chunks.length : Int) := by
    intro idx hidx
    obtain ⟨s, _, _, _, hlt⟩ := (mem_collectIndices_iff _ _ _ idx).mp hidx
    exact hlt
  have hlo : ∀ idx ∈ collectIndices partText chunks supports,
      -(chunks.length : Int) ≤ idx := by
    intro idx hidx
    obtain ⟨s, hs, _, hm, _⟩ := (mem_collectIndices_iff _ _ _ idx).mp hidx
    exact h s hs idx hm
  refine ⟨?_, hup⟩
  unfold findSourcesForPart
  apply resolveIndices_isOk
  intro i hi
  have hmem : i ∈ collectIndices partText chunks supports := by
    have hperm := List.perm_insertionSort (fun a b => a ≤ b)
      (collectIndices partText chunks supports).dedup
    exact List.mem_dedup.mp (hperm.mem_iff.mp hi)
  exact ⟨hlo i hmem, hup i hmem⟩

/-- Witness for C10 (amended): indices `5`, `-1`, `0` against two chunks —
`5` is skipped by the guard, `-1` wraps to the last chunk. -/
theorem C10_witness :
    (∃ sources, findSourcesForPart "abcdefghijkl".data
        [⟨"A".data, "u".data⟩, ⟨"B".data, "v".data⟩]
        [⟨[5, -1, 0], [], some ⟨0, 0, "abcdefghijkl".data⟩⟩] = .ok sources) ∧
    ∀ idx ∈ collectIndices "abcdefghijkl".data
        [⟨"A".data, "u".data⟩, ⟨"B".data, "v".data⟩]
        [⟨[5, -1, 0], [], some ⟨0, 0, "abcdefghijkl".data⟩⟩],
      idx < (([⟨"A".data, "u".data⟩, ⟨"B".data, "v".data⟩] : List Chunk).length : Int) :=
  C10_index_guard _ _ _ (by decide)

/-! ## Lemmas: grounding metadata extraction -/

theorem candidateStep_ok (acc : List Chunk × List Support) (c : Candidate)
    (h : candOk c = true) :
    candidateStep acc c = ((acc.1 ++ chunksOfCand c, acc.2 ++ supportsOfCand c), false) := by
  obtain ⟨gm⟩ := c
  cases gm with
  | none => simp [candidateStep, chunksOfCand, supportsOfCand]
  | some md =>
    obtain ⟨gc, gs⟩ := md
    cases gc <;> cases gs <;>
      simp_all [candidateStep, chunksOfCand, supportsOfCand, candOk,
        chunksOfIter, supportsOfIter]

theorem candidateStep_bad (acc : List Chunk × List Support) (c : Candidate)
    (h : candOk c = false) :
    candidateStep acc c = ((acc.1 ++ chunksOfCand c, acc.2), true) := by
  obtain ⟨gm⟩ := c
  cases gm with
  | none => simp [candOk] at h
  | some md =>
    obtain ⟨gc, gs⟩ := md
    cases gc <;> cases gs <;>
      simp_all [candidateStep, chunksOfCand, candOk, chunksOfIter]

theorem cleanExtract_cons (c : Candidate) (l : List Candidate) :
    cleanExtract (c :: l) =
      (chunksOfCand c ++ (cleanExtract l).1, supportsOfCand c ++ (cleanExtract l).2) := by
  simp [cleanExtract]

theorem runCandidates_append_ok :
    ∀ (pre tail : List Candidate) (acc : List Chunk × List Support),
      (∀ d ∈ pre, candOk d = true) →
      runCandidates (pre ++ tail) acc =
        runCandidates tail (acc.1 ++ (cleanExtract pre).1, acc.2 ++ (cleanExtract pre).2) := by
  intro pre
  induction pre with
  | nil =>
    intro tail acc _
    simp [cleanExtract]
  | cons c pre' ih =>
    intro tail acc hok
    have hc := hok c (List.mem_cons_self _ _)
    rw [List.cons_append, runCandidates, candidateStep_ok _ _ hc]
    show runCandidates (pre' ++ tail) (acc.1 ++ chunksOfCand c, acc.2 ++ supportsOfCand c) = _
    rw [ih tail _ (fun d hd => hok d (List.mem_cons_of_mem _ hd))]
    rw [cleanExtract_cons]
    simp [List.append_assoc]

/-! ## Claim C6 -/

/-- C6 counterexample: a response with one well-formed candidate followed by
a candidate whose `grounding_chunks` is truthy but not iterable raises; the
exception is caught, but the function returns the first candidate's chunk,
not `(empty, empty)` as the claim requires. -/
theorem C6_counterexample :
    (extractResult ⟨.items [⟨some ⟨.items [⟨some ⟨"T".data, "u".data⟩⟩], .missing⟩⟩,
        ⟨some ⟨.bad, .missing⟩⟩]⟩).2 = true ∧
    extractGroundingMetadata ⟨.items [⟨some ⟨.items [⟨some ⟨"T".data, "u".data⟩⟩], .missing⟩⟩,
        ⟨some ⟨.bad, .missing⟩⟩]⟩ ≠ ([], []) := by
  decide

/-- C6 (amended): `_extract_grounding_metadata` is total (modelled by
`extractGroundingMetadata` returning a plain pair).  On a response whose
candidates all have well-shaped (possibly absent) optional fields no
exception occurs and the result is the concatenation of the per-candidate
contributions, each absent field contributing nothing; when the traversal
fails at the first malformed candidate, the caught exception makes the
function return everything accumulated before the failure (including the
failing candidate's chunks when only its supports iterable is malformed) —
not necessarily `(empty, empty)`.  A response whose `candidates` attribute is
itself missing or not iterable yields `(empty, empty)`. -/
theorem C6_extraction_degrades (r : RawResponse) :
    (∀ cands, r.candidates = PyIter.items cands →
      ((∀ c ∈ cands, candOk c = true) →
        extractResult r = (cleanExtract cands, false)) ∧
      (∀ pre c rest, cands = pre ++ c :: rest →
        (∀ d ∈ pre, candOk d = true) → candOk c = false →
        extractGroundingMetadata r =
          ((cleanExtract pre).1 ++ chunksOfCand c, (cleanExtract pre).2))) ∧
    ((r.candidates = PyIter.missing ∨ r.candidates = PyIter.bad) →
      extractGroundingMetadata r = ([], [])) := by
  obtain ⟨cnd⟩ := r
  constructor
  · intro cands hcands
    simp only at hcands
    subst hcands
    constructor
    · intro hok
      show runCandidates cands ([], []) = (cleanExtract cands, false)
      have := runCandidates_append_ok cands [] ([], []) hok
      rw [List.append_nil] at this
      rw [this]
      simp [runCandidates]
    · intro pre c rest hsplit hok hbad
      subst hsplit
      show (runCandidates (pre ++ c :: rest) ([], [])).1 = _
      rw [runCandidates_append_ok pre (c :: rest) ([], []) hok]
      simp only [List.nil_append]
      rw [runCandidates, candidateStep_bad _ _ hbad]
  · intro hmb
    rcases hmb with hm | hm <;> simp only at hm <;> subst hm <;> rfl

/-- Witness for C6 (amended): a clean single-candidate response extracts its
chunk; a clean candidate followed by a supports-malformed candidate keeps the
prefix extraction plus the failing candidate's chunks. -/
theorem C6_witness :
    extractResult ⟨.items [⟨some ⟨.items [⟨some ⟨"T".data, "u".data⟩⟩], .missing⟩⟩]⟩ =
      (cleanExtract [⟨some ⟨.items [⟨some ⟨"T".data, "u".data⟩⟩], .missing⟩⟩], false) ∧
    extractGroundingMetadata ⟨.items [⟨some ⟨.items [⟨some ⟨"T".data, "u".data⟩⟩], .missing⟩⟩,
        ⟨some ⟨.items [⟨some ⟨"W".data, "w".data⟩⟩], .bad⟩⟩]⟩ =
      ((cleanExtract [⟨some ⟨.items [⟨some ⟨"T".data, "u".data⟩⟩], .missing⟩⟩]).1 ++
          chunksOfCand ⟨some ⟨.items [⟨some ⟨"W".data, "w".data⟩⟩], .bad⟩⟩,
        (cleanExtract [⟨some ⟨.items [⟨some ⟨"T".data, "u".data⟩⟩], .missing⟩⟩]).2) := by
  constructor
  · exact ((C6_extraction_degrades _).1 _ rfl).1 (by decide)
  · exact ((C6_extraction_degrades _).1 _ rfl).2
      [⟨some ⟨.items [⟨some ⟨"T".data, "u".data⟩⟩], .missing⟩⟩]
      ⟨some ⟨.items [⟨some ⟨"W".data, "w".data⟩⟩], .bad⟩⟩ [] rfl (by decide) (by decide)

/-! ## Claim C7 -/

/-- C7 counterexample: when the model call for the first of three topics
raises, the exception propagates out of the topic loop to `main`'s outer
handler: the exit status is 1 but no topic ran to completion — the other two
topics are not processed, contrary to the claim. -/
theorem C7_counterexample :
    runMain [⟨.ok [], fun _ => .error "boom".data, .ok ()⟩,
             ⟨.ok [], fun _ => .ok [], .ok ()⟩,
             ⟨.ok [], fun _ => .ok [], .ok ()⟩] = (1, []) := by
  rfl

theorem mainLoop_spec :
    ∀ (ts : List TopicEnv) (allS : Bool) (acc : List Bool),
      (∀ t ∈ ts, ∀ excl, ∃ items, t.fetchOutcome excl = .ok items) →
      (∀ t ∈ ts, ∀ m, t.postOutcome ≠ .exn m) →
      mainLoop ts allS acc =
        (if allS && ts.all postSucceeds then 0 else 1, acc.reverse ++ ts.map postSucceeds) := by
  intro ts
  induction ts with
  | nil =>
    intro allS acc _ _
    simp [mainLoop]
  | cons t rest ih =>
    intro allS acc hf hp
    obtain ⟨items, hfo⟩ := hf t (List.mem_cons_self _ _) (fetchRecentTitles t.historyOutcome)
    rw [mainLoop, hfo]
    cases hpo : t.postOutcome with
    | ok v =>
      simp only [postNewsOutcome, hpo]
      rw [ih (allS && true) (true :: acc)
        (fun d hd => hf d (List.mem_cons_of_mem _ hd))
        (fun d hd => hp d (List.mem_cons_of_mem _ hd))]
      have hps : postSucceeds t = true := by simp [postSucceeds, hpo]
      simp [hps, Bool.and_assoc]
    | apiErr code =>
      simp only [postNewsOutcome, hpo]
      rw [ih (allS && false) (false :: acc)
        (fun d hd => hf d (List.mem_cons_of_mem _ hd))
        (fun d hd => hp d (List.mem_cons_of_mem _ hd))]
      have hps : postSucceeds t = false := by simp [postSucceeds, hpo]
      simp [hps]
    | exn m =>
      exact absurd hpo (hp t (List.mem_cons_self _ _) m)

/-- C7 (amended): `fetch_recent_urls`/`fetch_recent_titles` catch history
API errors, so a history failure degrades to an empty exclusion list without
failing the topic; a post `SlackApiError` makes `post_news` return `False`,
so that topic reports failure while every other topic still runs and the
exit status is 1 exactly when some topic's post failed; but an exception
from the model call (which `fetch_news` does not catch) aborts the whole run,
skipping the remaining topics (see the counterexample).  Formally: when every
topic's model call succeeds and no call raises a non-`SlackApiError`
exception, every topic runs to completion, a topic's outcome is the success
of its post call, and the exit status is 0 iff all posts succeeded. -/
theorem C7_post_failure_isolated (ts : List TopicEnv)
    (hf : ∀ t ∈ ts, ∀ excl, ∃ items, t.fetchOutcome excl = .ok items)
    (hp : ∀ t ∈ ts, ∀ m, t.postOutcome ≠ .exn m) :
    runMain ts = (if ts.all postSucceeds then 0 else 1, ts.map postSucceeds) := by
  rw [runMain, mainLoop_spec ts true [] hf hp]
  simp

/-- Witness for C7 (amended): three topics, the second post raising a
`SlackApiError` and the third history call failing with one — all three run,
only the second fails, and the exit status is 1. -/
theorem C7_witness :
    runMain [⟨.ok [], fun _ => .ok [], .ok ()⟩,
             ⟨.ok [], fun _ => .ok [], .apiErr "channel_not_found".data⟩,
             ⟨.apiErr "rate_limited".data, fun _ => .ok [], .ok ()⟩] =
      (1, [true, false, true]) := by
  have h := C7_post_failure_isolated
    [⟨.ok [], fun _ => .ok [], .ok ()⟩,
     ⟨.ok [], fun _ => .ok [], .apiErr "channel_not_found".data⟩,
     ⟨.apiErr "rate_limited".data, fun _ => .ok [], .ok ()⟩]
    (by
      intro t ht excl
      simp only [List.mem_cons, List.not_mem_nil, or_false] at ht
      rcases ht with rfl | rfl | rfl <;> exact ⟨[], rfl⟩)
    (by
      intro t ht m
      simp only [List.mem_cons, List.not_mem_nil, or_false] at ht
      rcases ht with rfl | rfl | rfl <;> simp)
  rw [h]
  rfl

/-! ## Claim C8 -/

/-- C8 counterexample: an exception from the history call that is not a
`SlackApiError` (e.g. a connection error) is not caught by
`fetch_recent_urls`: it propagates instead of yielding an empty list. -/
theorem C8_counterexample :
    fetchRecentUrls (.exn "ConnectionError".data) = .error "ConnectionError".data ∧
    (Except.error "ConnectionError".data ≠
      (.ok [] : Except (List Char) (List (List Char)))) := by
  exact ⟨rfl, by simp⟩

/-- C8 (amended): a `SlackApiError` raised by the external history-retrieval
call is caught, logged, and degrades to an empty identifier list, and for any
outcome that is not a non-Slack exception the operation returns normally; an
exception of any other type propagates (see the counterexample). -/
theorem C8_api_error_caught (o : CallOutcome (List Message))
    (h : ∀ m, o ≠ CallOutcome.exn m) :
    (∃ urls, fetchRecentUrls o = .ok urls) ∧
    ∀ code, o = .apiErr code → fetchRecentUrls o = .ok [] := by
  cases o with
  | ok msgs => exact ⟨⟨extractUrlsFromMessages msgs, rfl⟩, fun code h' => by cases h'⟩
  | apiErr code => exact ⟨⟨[], rfl⟩, fun _ _ => rfl⟩
  | exn m => exact absurd rfl (h m)

/-- Witness for C8 (amended) at a concrete `SlackApiError`. -/
theorem C8_witness :
    (∃ urls, fetchRecentUrls (.apiErr "rate_limited".data) = .ok urls) ∧
    ∀ code, (CallOutcome.apiErr "rate_limited".data : CallOutcome (List Message)) =
        .apiErr code →
      fetchRecentUrls (.apiErr "rate_limited".data) = .ok [] :=
  C8_api_error_caught _ (by intro m h; cases h)

/-! ## Lemmas: URL pattern scanning -/

theorem takeWhile_append_all (p : α → Bool) (l1 l2 : List α)
    (h : ∀ x ∈ l1, p x = true) :
    (l1 ++ l2).takeWhile p = l1 ++ l2.takeWhile p := by
  induction l1 with
  | nil => simp
  | cons a t ih =>
    have ha := h a (List.mem_cons_self _ _)
    rw [List.cons_append, List.takeWhile_cons, if_pos ha, List.cons_append]
    rw [ih (fun x hx => h x (List.mem_cons_of_mem _ hx))]

theorem dropWhile_append_all (p : α → Bool) (l1 l2 : List α)
    (h : ∀ x ∈ l1, p x = true) :
    (l1 ++ l2).dropWhile p = l2.dropWhile p := by
  induction l1 with
  | nil => simp
  | cons a t ih =>
    have ha := h a (List.mem_cons_self _ _)
    rw [List.cons_append, List.dropWhile_cons, if_pos ha]
    exact ih (fun x hx => h x (List.mem_cons_of_mem _ hx))

theorem urlFindall_cons_ne (c : Char) (rest : List Char) (h : ¬c = '<') :
    urlFindall (c :: rest) = urlFindall rest := by
  rw [urlFindall.eq_2, if_neg h]

theorem urlFindall_cons_lt (rest url r' : List Char)
    (hm : matchUrl rest = some (url, r')) :
    urlFindall ('<' :: rest) = url :: urlFindall r' := by
  rw [urlFindall.eq_2, if_pos rfl]
  split
  · next u r heq =>
    have hur := hm.symm.trans heq
    injection hur with hur
    injection hur with h1 h2
    rw [h1, h2]
  · next heq =>
    rw [hm] at heq
    exact absurd heq (by simp)

theorem matchProto_render (l : MrkdwnLink) (suffix : List Char) :
    matchProto (linkUrl l ++ suffix) =
      some ((if l.secure then "https://".data else "http://".data),
        l.rest ++ suffix) := by
  unfold linkUrl
  cases hsec : l.secure
  · have hnpre : "https://".data.isPrefixOf
        ("http://".data ++ l.rest ++ suffix) = false := by
      show List.isPrefixOf ['h','t','t','p','s',':','/','/']
        ((['h','t','t','p',':','/','/'] ++ l.rest) ++ suffix) = false
      rw [List.append_assoc]
      simp [List.isPrefixOf_cons₂]
    have hpre : "http://".data.isPrefixOf
        ("http://".data ++ l.rest ++ suffix) = true := by
      rw [List.isPrefixOf_iff_prefix, List.append_assoc]
      exact List.prefix_append _ _
    unfold matchProto
    rw [if_neg (by simp [hnpre]), if_pos (by simp [hpre])]
    rw [List.append_assoc, List.drop_left' (by rfl)]
    simp
  · have hpre : "https://".data.isPrefixOf
        ("https://".data ++ l.rest ++ suffix) = true := by
      rw [List.isPrefixOf_iff_prefix, List.append_assoc]
      exact List.prefix_append _ _
    unfold matchProto
    rw [if_pos (by simp [hpre])]
    rw [List.append_assoc, List.drop_left' (by rfl)]
    simp

theorem matchUrl_render (l : MrkdwnLink) (t : List Char) (hwf : wfLink l = true) :
    matchUrl (linkUrl l ++
      ((match l.label with | some lab => '|' :: lab | none => []) ++ '>' :: t)) =
      some (linkUrl l, t) := by
  have hwf' := hwf
  unfold wfLink at hwf'
  simp only [Bool.and_eq_true] at hwf'
  obtain ⟨⟨hne, hall⟩, hlab⟩ := hwf'
  have hallp : ∀ x ∈ l.rest, (fun c => !(c == '|') && !(c == '>')) x = true :=
    fun x hx => List.all_eq_true.mp hall x hx
  have hrestne : l.rest ≠ [] := by
    intro he
    rw [he] at hne
    simp at hne
  unfold matchUrl
  rw [matchProto_render]
  simp only
  cases hlabel : l.label with
  | none =>
    simp only [hlabel]
    rw [takeWhile_append_all _ _ _ hallp, dropWhile_append_all _ _ _ hallp]
    simp only [List.nil_append]
    rw [List.takeWhile_cons_of_neg (by decide), List.dropWhile_cons_of_neg (by decide)]
    rw [List.append_nil]
    rw [if_neg (by simpa using hrestne)]
    simp [linkUrl]
  | some lab =>
    simp only [hlabel]
    rw [takeWhile_append_all _ _ _ hallp, dropWhile_append_all _ _ _ hallp]
    simp only [List.cons_append]
    rw [List.takeWhile_cons_of_neg (by decide), List.dropWhile_cons_of_neg (by decide)]
    rw [List.append_nil]
    rw [if_neg (by simpa using hrestne)]
    have hlabp : ∀ x ∈ lab, (fun c => !(c == '>')) x = true := by
      intro x hx
      rw [hlabel] at hlab
      exact List.all_eq_true.mp hlab x hx
    have hdrop : List.dropWhile (fun c => !(c == '>')) (lab ++ '>' :: t) = '>' :: t := by
      rw [dropWhile_append_all _ _ _ hlabp]
      rw [List.dropWhile_cons_of_neg (by decide)]
    simp [hdrop, linkUrl]

theorem renderLink_append (l : MrkdwnLink) (t : List Char) :
    renderLink l ++ t = '<' :: (linkUrl l ++
      ((match l.label with | some lab => '|' :: lab | none => []) ++ '>' :: t)) := by
  unfold renderLink
  simp [List.append_assoc]

theorem urlFindall_append_noise (noise t : List Char) (h : noLT noise = true) :
    urlFindall (noise ++ t) = urlFindall t := by
  induction noise with
  | nil => simp
  | cons c cs ih =>
    have hc : ¬c = '<' := by
      have := List.all_eq_true.mp h c (List.mem_cons_self _ _)
      simpa using this
    have hcs : noLT cs = true := by
      unfold noLT at h ⊢
      simp only [List.all_cons, Bool.and_eq_true] at h
      exact h.2
    rw [List.cons_append, urlFindall_cons_ne c _ hc]
    exact ih hcs

theorem urlFindall_render_cons (l : MrkdwnLink) (t : List Char)
    (hwf : wfLink l = true) :
    urlFindall (renderLink l ++ t) = linkUrl l :: urlFindall t := by
  rw [renderLink_append]
  exact urlFindall_cons_lt _ _ _ (matchUrl_render l t hwf)

theorem urlFindall_chain (s0 : List Char) (ps : List (MrkdwnLink × List Char))
    (h0 : noLT s0 = true)
    (hps : ∀ p ∈ ps, wfLink p.1 = true ∧ noLT p.2 = true) :
    urlFindall (renderChain s0 ps) = ps.map (fun p => linkUrl p.1) := by
  induction ps generalizing s0 with
  | nil =>
    show urlFindall s0 = []
    have h := urlFindall_append_noise s0 [] h0
    rw [List.append_nil] at h
    rw [h]
    exact urlFindall.eq_1
  | cons p rest ih =>
    obtain ⟨l, sep⟩ := p
    show urlFindall (s0 ++ renderLink l ++ renderChain sep rest) = _
    rw [List.append_assoc, urlFindall_append_noise _ _ h0]
    rw [urlFindall_render_cons l _ (hps (l, sep) (List.mem_cons_self _ _)).1]
    rw [ih sep (hps (l, sep) (List.mem_cons_self _ _)).2
      (fun q hq => hps q (List.mem_cons_of_mem _ hq))]
    rfl

theorem prefix_renderChain (s0 : List Char) (ps : List (MrkdwnLink × List Char)) :
    s0 <+: renderChain s0 ps := by
  cases ps with
  | nil => exact List.prefix_refl _
  | cons p rest =>
    obtain ⟨l, sep⟩ := p
    show s0 <+: s0 ++ renderLink l ++ renderChain sep rest
    rw [List.append_assoc]
    exact List.prefix_append _ _

/-! ## Claim C9 -/

/-- C9: for any mrkdwn text that is an alternation of `<`-free plain text and
well-formed bracketed hyperlinks (both the `<URL|label>` and the `<URL>`
forms), starting with the link glyph, the history reader's URL-mode
extraction over a message carrying that text in a `context`/`mrkdwn` block
returns exactly the URL portions of the hyperlinks, in order. -/
theorem C9_url_extraction (s0 : List Char) (ps : List (MrkdwnLink × List Char))
    (h0 : noLT s0 = true) (hg : "🔗".data.isPrefixOf s0 = true)
    (hps : ∀ p ∈ ps, wfLink p.1 = true ∧ noLT p.2 = true) :
    extractUrlsFromMessages
        [⟨[⟨"context".data, [⟨"mrkdwn".data, renderChain s0 ps⟩]⟩]⟩] =
      ps.map (fun p => linkUrl p.1) := by
  have hpre : "🔗".data.isPrefixOf (renderChain s0 ps) = true := by
    rw [List.isPrefixOf_iff_prefix] at hg ⊢
    exact hg.trans (prefix_renderChain s0 ps)
  unfold extractUrlsFromMessages
  simp only [List.flatMap_cons, List.flatMap_nil, List.append_nil]
  rw [if_pos trivial, if_pos (And.intro trivial hpre)]
  exact urlFindall_chain s0 ps h0 hps

/-- Witness for C9 on the scenario text
`"🔗 <http://a|Site A> | <http://b>"`. -/
theorem C9_witness :
    renderChain "🔗 ".data
        [(⟨false, "a".data, some "Site A".data⟩, " | ".data),
         (⟨false, "b".data, none⟩, [])] =
      "🔗 <http://a|Site A> | <http://b>".data ∧
    extractUrlsFromMessages
        [⟨[⟨"context".data, [⟨"mrkdwn".data,
          renderChain "🔗 ".data
            [(⟨false, "a".data, some "Site A".data⟩, " | ".data),
             (⟨false, "b".data, none⟩, [])]⟩]⟩]⟩] =
      ["http://a".data, "http://b".data] := by
  constructor
  · decide
  · have h := C9_url_extraction "🔗 ".data
      [(⟨false, "a".data, some "Site A".data⟩, " | ".data),
       (⟨false, "b".data, none⟩, [])]
      (by decide) (by decide) (by decide)
    rw [h]
    decide

end NewsCuratorModel
